import Mathlib

/-!
# Verification of the CamerAI perception core

A shallow embedding, in Lean 4, of the deterministic tensor-transformation
layer of the CamerAI backend:

* `backend/app/services/yolo_service.py`   — `_nms_numpy`, `YOLOService.postprocess`,
  `YOLOService.detect`
* `backend/app/services/face_service.py`   — `FaceService._generate_anchors`,
  `FaceService.detect_faces`, `FaceService._compute_iou`
* `backend/app/services/whisper_service.py` — `_build_byte_decoder`,
  `_compute_log_mel_spectrogram`, `_greedy_decode_tokens`, `WhisperService.transcribe`
* `backend/audiodetector.py`               — `_build_mel_filterbank`, `_stft_magnitude`,
  `AudioDetector._preprocess`
* `backend/app/services/onnx_runtime_manager.py` — `OnnxRuntimeManager.get_session`

Modelling conventions:

* Python/NumPy floats are idealised as exact rationals (`ℚ`); `round(x, n)` is
  modelled as decimal round-half-to-even on `ℚ`.
* NumPy arrays are lists (row-major); parallel arrays that the source indexes
  with a common index are zipped into per-candidate records.
* The opaque ONNX inference call, the PIL image resize, the audio container
  decoding, and the transcendental scalar functions (`exp`, `10**x`, FFT
  twiddle factors) are external collaborators: they enter the embedding as
  explicit parameters of the functions that consume their results.
* `numpy.argsort` (used to order NMS candidates by score) is not a stable sort
  for equal keys; the embedding fixes the tie order to "earlier index first",
  which is one of the orders the source may produce.
-/

namespace CamerAI

/-- An axis-aligned box `[x1, y1, x2, y2]` as used by `_nms_numpy`
(`yolo_service.py`) and `_compute_iou` (`face_service.py`). -/
structure Box where
  x1 : ℚ
  y1 : ℚ
  x2 : ℚ
  y2 : ℚ
deriving DecidableEq, Repr

/-- `areas = (x2 - x1) * (y2 - y1)` — `yolo_service.py` line 60.  The source
does not clamp, so a degenerate box may have negative area. -/
def Box.area (b : Box) : ℚ := (b.x2 - b.x1) * (b.y2 - b.y1)

/-- Intersection-over-union of two boxes, exactly as computed by
`_nms_numpy` (`yolo_service.py` lines 71-81) and by
`FaceService._compute_iou` (`face_service.py` lines 177-187):
`inter = max(0, xx2-xx1) * max(0, yy2-yy1)`,
`iou = inter / union` when `union > 0`, else `0`. -/
def iouQ (a b : Box) : ℚ :=
  let xx1 := max a.x1 b.x1
  let yy1 := max a.y1 b.y1
  let xx2 := min a.x2 b.x2
  let yy2 := min a.y2 b.y2
  let w := max 0 (xx2 - xx1)
  let h := max 0 (yy2 - yy1)
  let inter := w * h
  let union := a.area + b.area - inter
  if 0 < union then inter / union else 0

/-- Fuel-indexed body of the greedy suppression loop; the fuel only bounds
the recursion depth (each iteration strictly shrinks the worklist, so fuel
`= initial length` never runs out — see `nmsRunFuel_congr`). -/
def nmsRunFuel {α : Type} (boxOf : α → Box) (thr : ℚ) : ℕ → List α → List α
  | _, [] => []
  | 0, _ :: _ => []
  | n + 1, c :: rest =>
      c :: nmsRunFuel boxOf thr n (rest.filter fun d => decide (iouQ (boxOf c) (boxOf d) ≤ thr))

/-- The greedy suppression loop shared by `_nms_numpy` (`yolo_service.py`
lines 63-87) and the inline face NMS (`face_service.py` lines 134-150):
take the best remaining candidate, keep it, and drop every remaining
candidate whose IoU with it exceeds the threshold (the source keeps indices
with `iou <= iou_threshold`).  The source operates on index arrays into
parallel `boxes`/`scores` arrays and the caller immediately gathers
`boxes[keep]`, `scores[keep]`; the embedding works directly on the gathered
candidate records, in the same order. -/
def nmsRun {α : Type} (boxOf : α → Box) (thr : ℚ) (l : List α) : List α :=
  nmsRunFuel boxOf thr l.length l

/-- Candidate ordering used before suppression: `scores.argsort()[::-1]`
(`yolo_service.py` line 61) resp. `np.argsort(-scores[indices])`
(`face_service.py` line 137) — descending score.  Ties between exactly equal
scores are resolved "earlier first" (the source's `argsort` leaves tie order
unspecified). -/
def sortByScoreDesc {α : Type} (scoreOf : α → ℚ) (l : List α) : List α :=
  l.insertionSort (fun a b => scoreOf b ≤ scoreOf a)

/-- Full greedy NMS: sort candidates by descending score, then run the
greedy suppression loop (`_nms_numpy`, `yolo_service.py` lines 35-87). -/
def nmsKeep {α : Type} (boxOf : α → Box) (scoreOf : α → ℚ) (thr : ℚ) (l : List α) : List α :=
  nmsRun boxOf thr (sortByScoreDesc scoreOf l)

/-! ### Scalar helpers -/

/-- Round a rational to the nearest integer, ties to even — the rounding mode
of Python's built-in `round` (used as `round(float(v), k)` throughout the
decoders; binary floats are idealised as exact rationals). -/
def roundHalfEven (q : ℚ) : ℤ :=
  if q - (⌊q⌋ : ℚ) < 1/2 then ⌊q⌋
  else if 1/2 < q - (⌊q⌋ : ℚ) then ⌊q⌋ + 1
  else if ⌊q⌋ % 2 = 0 then ⌊q⌋ else ⌊q⌋ + 1

/-- Python `round(x, ndigits)` on an idealised float. -/
def pyRound (ndigits : ℕ) (q : ℚ) : ℚ :=
  (roundHalfEven (q * 10 ^ ndigits) : ℚ) / 10 ^ ndigits

/-- `np.clip(v, 0.0, 1.0)` — `yolo_service.py` lines 203-206,
`face_service.py` lines 155-158. -/
def clip01 (q : ℚ) : ℚ := min (max q 0) 1

/-! ### YOLO box decoder (`yolo_service.py`) -/

/-- The 80 COCO class names (`yolo_service.py` lines 18-32). -/
def cocoClasses : List String := [
  "person", "bicycle", "car", "motorcycle", "airplane", "bus", "train",
  "truck", "boat", "traffic light", "fire hydrant", "stop sign",
  "parking meter", "bench", "bird", "cat", "dog", "horse", "sheep", "cow",
  "elephant", "bear", "zebra", "giraffe", "backpack", "umbrella",
  "handbag", "tie", "suitcase", "frisbee", "skis", "snowboard",
  "sports ball", "kite", "baseball bat", "baseball glove", "skateboard",
  "surfboard", "tennis racket", "bottle", "wine glass", "cup", "fork",
  "knife", "spoon", "bowl", "banana", "apple", "sandwich", "orange",
  "broccoli", "carrot", "hot dog", "pizza", "donut", "cake", "chair",
  "couch", "potted plant", "bed", "dining table", "toilet", "tv",
  "laptop", "mouse", "remote", "keyboard", "cell phone", "microwave",
  "oven", "toaster", "sink", "refrigerator", "book", "clock", "vase",
  "scissors", "teddy bear", "hair drier", "toothbrush"]

/-- The `Detection` record of `app/models/schemas.py` (pydantic model with
`class_id`, `class_name`, `confidence`, `bbox`). -/
structure Detection where
  class_id : ℕ
  class_name : String
  confidence : ℚ
  bbox : List ℚ
deriving DecidableEq, Repr

/-- First index of the maximum — `np.argmax` semantics (ties: lowest index).
`np.argmax` raises on an empty axis; the embedding returns 0 there (only the
well-shaped rows of a rectangular tensor reach this function in the source). -/
def argmaxIdx (l : List ℚ) : ℕ :=
  (l.foldl
    (fun (acc : ℕ × ℕ × ℚ) v =>
      if acc.2.2 < v then (acc.2.1, acc.2.1 + 1, v) else (acc.1, acc.2.1 + 1, acc.2.2))
    (0, 0, l.getD 0 0)).1

/-- One row of the transposed YOLO output `(8400, 84)`: columns
`[cx, cy, w, h, class_score_0 …]` — `postprocess`, `yolo_service.py`
lines 154-175.  `class_id = argmax(scores)`, `conf = scores[class_id]`. -/
structure Cand where
  cx : ℚ
  cy : ℚ
  w : ℚ
  h : ℚ
  class_id : ℕ
  conf : ℚ
deriving DecidableEq, Repr

/-- Build the per-cell candidate from a raw tensor row (`yolo_service.py`
lines 157-166).  Out-of-range accesses default to `0` (NumPy column slices
of a rectangular array never miss; the source performs no shape check). -/
def rowToCand (row : List ℚ) : Cand :=
  let scores := row.drop 4
  let k := argmaxIdx scores
  { cx := row.getD 0 0
  , cy := row.getD 1 0
  , w := row.getD 2 0
  , h := row.getD 3 0
  , class_id := k
  , conf := scores.getD k 0 }

/-- Corner-format box of a candidate (`yolo_service.py` lines 178-183):
`x1 = cx - w/2`, … (computed after the confidence mask in the source, but
pointwise per row, so the value is the same). -/
def Cand.box (c : Cand) : Box :=
  ⟨c.cx - c.w / 2, c.cy - c.h / 2, c.cx + c.w / 2, c.cy + c.h / 2⟩

/-- `YOLOService.INPUT_SIZE = 640`. -/
def YOLO_INPUT_SIZE : ℕ := 640

/-- Scale a kept box to the original image, normalise to `[0,1]`, clip, and
round — `yolo_service.py` lines 194-218 (`boxes[:,0] *= orig_w/640`, then
`np.clip(boxes[:,0]/orig_w, 0, 1)`, then `round(float(v), 5)`;
`confidence = round(float(conf), 4)`). -/
def candToDetection (origH origW : ℕ) (c : Cand) : Detection :=
  let sx : ℚ := (origW : ℚ) / (YOLO_INPUT_SIZE : ℚ)
  let sy : ℚ := (origH : ℚ) / (YOLO_INPUT_SIZE : ℚ)
  let b := c.box
  { class_id := c.class_id
  , class_name :=
      if c.class_id < cocoClasses.length then cocoClasses.getD c.class_id ""
      else "class_" ++ toString c.class_id
  , confidence := pyRound 4 c.conf
  , bbox := [ pyRound 5 (clip01 (b.x1 * sx / (origW : ℚ)))
            , pyRound 5 (clip01 (b.y1 * sy / (origH : ℚ)))
            , pyRound 5 (clip01 (b.x2 * sx / (origW : ℚ)))
            , pyRound 5 (clip01 (b.y2 * sy / (origH : ℚ))) ] }

/-- `YOLOService.postprocess` (`yolo_service.py` lines 125-220) on the
transposed prediction tensor (list of rows of `(8400, 84)`): build per-cell
candidates, drop those below `conf_thresh` (`mask = confidences >=
conf_thresh`, early `return []` when the mask is empty), greedy NMS, then
rescale/normalise/clip/round the kept boxes.  `conf_thresh` is the explicit
argument (the source defaults it to `settings.confidence_threshold = 0.5`). -/
def postprocess (preds : List (List ℚ)) (origH origW : ℕ)
    (confThresh iouThresh : ℚ) : List Detection :=
  let cands := preds.map rowToCand
  let filtered := cands.filter fun c => decide (confThresh ≤ c.conf)
  if filtered = [] then []
  else
    let kept := nmsKeep Cand.box Cand.conf iouThresh filtered
    if kept = [] then []
    else kept.map (candToDetection origH origW)

/-- The error taxonomy §7 of the specification assigns to decode functions. -/
inductive DecodeError where
  | invalidInput
deriving DecidableEq, Repr

/-- `YOLOService.postprocess` with its possible typed failures made explicit
in the return type.  The body is the faithful embedding of the source, which
performs no shape validation whatsoever and therefore can only return
normally — there is no branch producing `.error`. -/
def postprocessE (preds : List (List ℚ)) (origH origW : ℕ)
    (confThresh iouThresh : ℚ) : Except DecodeError (List Detection) :=
  .ok (postprocess preds origH origW confThresh iouThresh)

/-- The input shape `postprocess` documents for its tensor argument
(`(8400, 84)` after transposition — `yolo_service.py` lines 134-136). -/
def yoloShapeOk (preds : List (List ℚ)) : Prop :=
  preds.length = 8400 ∧ ∀ row ∈ preds, row.length = 84

/-! ### Face anchor decoder (`face_service.py`) -/

/-- The `FaceDetection` record of `app/models/schemas.py`. -/
structure FaceDetection where
  bbox : List ℚ
  confidence : ℚ
  landmarks : List (List ℚ)
deriving DecidableEq, Repr

/-- `FaceService._generate_anchors` (`face_service.py` lines 49-66): for
strides 8 and 16, a `(128/stride)²` grid with two anchors per cell at the
cell centre, in row-major order. -/
def generateAnchors (inputSize : ℕ) : List (ℚ × ℚ) :=
  [8, 16].flatMap fun stride =>
    let gridSize := inputSize / stride
    (List.range gridSize).flatMap fun y =>
      (List.range gridSize).flatMap fun x =>
        List.replicate 2 (((x : ℚ) + 1/2) / (gridSize : ℚ), ((y : ℚ) + 1/2) / (gridSize : ℚ))

/-- The cached anchor table (`FaceService._get_anchors`). -/
def faceAnchors : List (ℚ × ℚ) := generateAnchors 128

/-- One face candidate: an anchor, its 16-column regressor row and its
(post-sigmoid) score — the triple the source indexes with a common `idx`. -/
structure FaceCand where
  anchor : ℚ × ℚ
  raw : List ℚ
  score : ℚ
deriving DecidableEq, Repr

/-- Anchor-relative box decode (`face_service.py` lines 117-125):
`cx = anchor.x + raw[0]/128`, `cy = anchor.y + raw[1]/128`,
`w = raw[2]/128`, `h = raw[3]/128`, corners `= centre ± extent/2`. -/
def FaceCand.box (c : FaceCand) : Box :=
  let cx := c.anchor.1 + c.raw.getD 0 0 / 128
  let cy := c.anchor.2 + c.raw.getD 1 0 / 128
  let w := c.raw.getD 2 0 / 128
  let h := c.raw.getD 3 0 / 128
  ⟨cx - w / 2, cy - h / 2, cx + w / 2, cy + h / 2⟩

/-- Clip the box, round the score, decode the six landmark pairs
(`face_service.py` lines 152-173). -/
def faceCandToDetection (c : FaceCand) : FaceDetection :=
  { bbox := [clip01 c.box.x1, clip01 c.box.y1, clip01 c.box.x2, clip01 c.box.y2]
  , confidence := pyRound 4 c.score
  , landmarks := (List.range 6).map fun i =>
      [ clip01 (c.anchor.1 + c.raw.getD (4 + 2 * i) 0 / 128)
      , clip01 (c.anchor.2 + c.raw.getD (5 + 2 * i) 0 / 128) ] }

/-- The decode part of `FaceService.detect_faces` (`face_service.py` lines
108-175).  `σ` is the sigmoid `1/(1+exp(-x))` applied to raw scores (a
transcendental external routine, passed as a parameter).  The source's
inline greedy loop over `order` with a `used` set suppresses exactly the
later candidates with `iou > 0.3`, i.e. it is `nmsKeep` at threshold
`3/10`.  Parallel arrays `anchors`/`raw_boxes`/`raw_scores` are zipped. -/
def detectFacesDecode (σ : ℚ → ℚ) (rawBoxes : List (List ℚ))
    (rawScores : List ℚ) (confThresh : ℚ) : List FaceDetection :=
  let cands := (faceAnchors.zip (rawBoxes.zip rawScores)).map fun p =>
    ({ anchor := p.1, raw := p.2.1, score := σ p.2.2 } : FaceCand)
  let filtered := cands.filter fun c => decide (confThresh ≤ c.score)
  if filtered = [] then []
  else (nmsKeep FaceCand.box FaceCand.score (3/10) filtered).map faceCandToDetection

/-! ### Whisper token decoding (`whisper_service.py`) -/

/-- `EOT_TOKEN = 50256` (`<|endoftext|>`). -/
def eotTokenId : ℤ := 50256

/-- The GPT-2 byte order built by `_build_byte_decoder` (`whisper_service.py`
lines 49-60): printable bytes first (`!`..`~`, `¡`..`¬`, `®`..`ÿ`), then the
remaining bytes in increasing order. -/
def gpt2ByteOrderInit : List ℕ :=
  List.range' 33 94 ++ List.range' 161 12 ++ List.range' 174 82

/-- `bs` after the `for b in range(256): if b not in bs: bs.append(b)` loop. -/
def gpt2ByteOrder : List ℕ :=
  gpt2ByteOrderInit ++ (List.range 256).filter fun b => !gpt2ByteOrderInit.contains b

/-- `_BYTE_DECODER[tid] = bytes([bs[tid]]).decode("utf-8", errors="replace")`:
a lone byte below 128 decodes to itself, any byte ≥ 128 is invalid UTF-8 on
its own and decodes to U+FFFD. -/
def byteDecodeChar (tid : ℕ) : Char :=
  let b := gpt2ByteOrder.getD tid 0
  if b < 128 then Char.ofNat b else Char.ofNat 0xFFFD

/-- Per-token step of `_greedy_decode_tokens` (`whisper_service.py` lines
234-245): special tokens (`tid ≥ 50257` or negative) are skipped; byte-range
tokens map through `_BYTE_DECODER`; anything else (merge tokens without a
merges table) becomes a space. -/
def tokenChar (tid : ℤ) : Option Char :=
  if 50257 ≤ tid ∨ tid < 0 then none
  else if 0 ≤ tid ∧ tid < 256 then some (byteDecodeChar tid.toNat)
  else some ' '

/-- Python `str.isspace()` for the characters this decoder can produce
(ASCII; U+FFFD is not whitespace). -/
def isPySpace (c : Char) : Bool :=
  decide (c.toNat = 32 ∨ (9 ≤ c.toNat ∧ c.toNat ≤ 13) ∨ (28 ≤ c.toNat ∧ c.toNat ≤ 31))

/-- Accumulator pass of Python `str.split()` (split on whitespace runs,
dropping empty fields). -/
def splitWordsAux : List Char → List Char → List (List Char)
  | [], acc => if acc.isEmpty then [] else [acc.reverse]
  | c :: cs, acc =>
      if isPySpace c then
        if acc.isEmpty then splitWordsAux cs [] else acc.reverse :: splitWordsAux cs []
      else splitWordsAux cs (c :: acc)

/-- Python `text.split()`. -/
def splitWords (cs : List Char) : List (List Char) := splitWordsAux cs []

/-- `" ".join(text.split())` — `whisper_service.py` line 249. -/
def collapseWs (cs : List Char) : List Char := List.intercalate [' '] (splitWords cs)

/-- Python `str.strip()` (restricted to the ASCII whitespace the decoder can
produce). -/
def stripPy (cs : List Char) : List Char :=
  ((cs.dropWhile isPySpace).reverse.dropWhile isPySpace).reverse

/-- `_greedy_decode_tokens` (`whisper_service.py` lines 227-250). -/
def greedyDecodeTokens (tokenIds : List ℤ) : String :=
  ⟨stripPy (collapseWs (tokenIds.filterMap tokenChar))⟩

/-- EOT truncation done by `WhisperService.transcribe` before decoding
(`whisper_service.py` lines 321-322): `token_ids[:token_ids.index(EOT)]`
when present. -/
def truncateAtEOT (tokenIds : List ℤ) : List ℤ :=
  if eotTokenId ∈ tokenIds then tokenIds.takeWhile (fun t => !(t == eotTokenId))
  else tokenIds

/-- The token-to-text stage of `WhisperService.transcribe`: truncate at the
first EOT, then greedy byte-level decode. -/
def decodeTokens (tokenIds : List ℤ) : String :=
  greedyDecodeTokens (truncateAtEOT tokenIds)

/-! ### Whisper spectrogram framing (`whisper_service.py`) -/

def WHISPER_SAMPLE_RATE : ℕ := 16000
def WHISPER_N_FFT : ℕ := 400
def WHISPER_HOP_LENGTH : ℕ := 160
def WHISPER_CHUNK_LENGTH_S : ℕ := 30

/-- `WHISPER_MAX_FRAMES = WHISPER_SAMPLE_RATE * WHISPER_CHUNK_LENGTH_S`
(480000 samples — `whisper_service.py` line 25). -/
def WHISPER_MAX_FRAMES : ℕ := WHISPER_SAMPLE_RATE * WHISPER_CHUNK_LENGTH_S

/-- The pad-or-truncate step of `_compute_log_mel_spectrogram`
(`whisper_service.py` lines 131-135): truncate to, or zero-pad up to,
exactly `WHISPER_MAX_FRAMES` samples. -/
def padOrTruncateAudio (audio : List ℚ) : List ℚ :=
  if WHISPER_MAX_FRAMES < audio.length then audio.take WHISPER_MAX_FRAMES
  else audio ++ List.replicate (WHISPER_MAX_FRAMES - audio.length) 0

/-- `n_frames = 1 + (len(audio) - WHISPER_N_FFT) // WHISPER_HOP_LENGTH`
(`whisper_service.py` line 140) — the number of STFT frames produced by the
uncentred `as_strided` framing. -/
def whisperFrameCount (sampleCount : ℕ) : ℕ :=
  1 + (sampleCount - WHISPER_N_FFT) / WHISPER_HOP_LENGTH

/-- The sample count the specification prescribes for a fixed
`target_frame_count`: `target_frame_count * hop_length + window_length -
hop_length` (spec §4.1 step 1).  Stated from the spec's words for
comparison against the source's padding. -/
def specTargetSampleCount (targetFrameCount hopLength windowLength : ℕ) : ℕ :=
  targetFrameCount * hopLength + windowLength - hopLength

/-- The floor applied to mel power before the logarithm:
`np.maximum(mel_spec, 1e-10)` (`whisper_service.py` line 155; the float
literal `1e-10` is idealised as `10⁻¹⁰`). -/
def whisperClampPower (p : ℚ) : ℚ := max p (1 / 10 ^ 10)

/-! ### Audio-event mel filterbank and patch windower (`audiodetector.py`) -/

def MEL_BANDS : ℕ := 64
def PATCH_FRAMES : ℕ := 96
def PATCH_HOP : ℕ := 48
def STFT_NFFT : ℕ := 512

/-- Triangular mel filter weights of `_build_mel_filterbank`
(`audiodetector.py` lines 41-66), parameterised over the FFT-bin edge
sequence `binPoints` (the source derives the edges from the mel scale via
`10 ** (mel/2595)`, a transcendental external computation; every property
proved below holds for arbitrary edges).  `filterbank[i, j]` rises linearly
on `[left, centre)` and falls on `[centre, right)`; all other entries stay
at their zero initialisation. -/
def melFilterbank (binPoints : ℕ → ℤ) (i j : ℕ) : ℚ :=
  if binPoints i ≤ (j : ℤ) ∧ (j : ℤ) < binPoints (i + 1) then
    (((j : ℤ) - binPoints i : ℤ) : ℚ) / ((binPoints (i + 1) - binPoints i : ℤ) : ℚ)
  else if binPoints (i + 1) ≤ (j : ℤ) ∧ (j : ℤ) < binPoints (i + 2) then
    ((binPoints (i + 2) - (j : ℤ) : ℤ) : ℚ) / ((binPoints (i + 2) - binPoints (i + 1) : ℤ) : ℚ)
  else 0

/-- One entry of `np.log`'s argument in `AudioDetector._preprocess`
(`audiodetector.py` lines 215-223): `mel_spec = mag @ mel_fb.T` then
`mel_spec + 0.001`.  `mag` is the STFT magnitude matrix `|rfft|` (its
entries are absolute values, hence nonnegative — stated as a hypothesis
where needed); `257 = STFT_NFFT // 2 + 1` frequency bins. -/
def audioLogArg (mag : ℕ → ℕ → ℚ) (binPoints : ℕ → ℤ) (t m : ℕ) : ℚ :=
  (∑ k ∈ Finset.range (STFT_NFFT / 2 + 1), mag t k * melFilterbank binPoints m k) + 1 / 1000

/-- The 96-frame/48-hop window loop of `AudioDetector._preprocess`
(`audiodetector.py` lines 226-232): patches start at `0, 48, 96, …` while
`start + 96 ≤ n`; with `n ≥ 96` that is `(n-96)/48 + 1` patches. -/
def patchWindows (mel : List (List ℚ)) : List (List (List ℚ)) :=
  if mel.length < PATCH_FRAMES then []
  else (List.range ((mel.length - PATCH_FRAMES) / PATCH_HOP + 1)).map fun i =>
    (mel.drop (i * PATCH_HOP)).take PATCH_FRAMES

/-- `AudioDetector._preprocess` patch assembly (`audiodetector.py` lines
226-242): if the window loop produced nothing (spectrogram shorter than one
patch), zero-pad to exactly one `(96, 64)` patch
(`padded = np.zeros((96, 64)); padded[:n_frames] = mel_spec[:96]`). -/
def audioPreprocessPatches (mel : List (List ℚ)) : List (List (List ℚ)) :=
  let patches := patchWindows mel
  if patches = [] then
    [mel.take PATCH_FRAMES ++ List.replicate (PATCH_FRAMES - mel.length) (List.replicate MEL_BANDS 0)]
  else patches

/-! ### Runtime session management (`onnx_runtime_manager.py`) and service
entry points -/

/-- The failures `OnnxRuntimeManager.get_session` can raise
(`onnx_runtime_manager.py` lines 65-75): `RuntimeError` when onnxruntime is
not installed, `FileNotFoundError` when the model file is absent — the
latter is the spec's `ModelUnavailable` condition. -/
inductive InferError where
  | runtimeError
  | fileNotFound
deriving DecidableEq, Repr

/-- The process state `get_session` consults: whether onnxruntime imported,
which model files exist on disk, which sessions are already cached. -/
structure RuntimeEnv where
  ortAvailable : Bool
  modelFileExists : String → Bool
  cachedSessions : List String

/-- `OnnxRuntimeManager.get_session` (`onnx_runtime_manager.py` lines
65-97): raise `RuntimeError` without onnxruntime; return a cached session;
raise `FileNotFoundError` when the model file is missing; otherwise load
(the loaded session itself is opaque, modelled as `Unit`). -/
def getSession (env : RuntimeEnv) (modelName : String) : Except InferError Unit :=
  if !env.ortAvailable then .error .runtimeError
  else if env.cachedSessions.contains modelName then .ok ()
  else if !(env.modelFileExists modelName) then .error .fileNotFound
  else .ok ()

def yoloModelName : String := "yolov8n_det.onnx"
def faceDetModelName : String := "mediapipe_face_det.onnx"
def whisperModelName : String := "whisper_tiny_en.onnx"

/-- `YOLOService.detect` (`yolo_service.py` lines 273-296): when onnxruntime
is unavailable **or the model file does not exist**, return
`_demo_detect(frame)` — synthetic detections from a seeded RNG, passed here
as the parameter `demoDetections` — otherwise run the session and
postprocess.  `modelOutput` parameterises the opaque `session.run`;
`(1/2, 45/100)` are the source's default thresholds. -/
def yoloDetect (env : RuntimeEnv) (demoDetections : List Detection)
    (modelOutput : List (List ℚ)) (origH origW : ℕ) : Except InferError (List Detection) :=
  if !env.ortAvailable || !(env.modelFileExists yoloModelName) then
    .ok demoDetections
  else
    match getSession env yoloModelName with
    | .error e => .error e
    | .ok _ => .ok (postprocess modelOutput origH origW (1/2) (45/100))

/-- The `Transcription` record of `app/models/schemas.py`. -/
structure Transcription where
  text : String
  language : String
  duration : ℚ
deriving DecidableEq, Repr

/-- `WhisperService.transcribe` (`whisper_service.py` lines 275-330):
`get_session` errors are handled by `except FileNotFoundError`, which
returns the placeholder `Transcription(text="[model not available]", …)`
(a `RuntimeError` from missing onnxruntime still propagates).  On success
the model's argmaxed token ids (`modelTokens`, parameterising the opaque
inference + argmax) are EOT-truncated and byte-decoded. -/
def transcribe (env : RuntimeEnv) (modelTokens : List ℤ) (duration : ℚ) :
    Except InferError Transcription :=
  match getSession env whisperModelName with
  | .error .fileNotFound => .ok ⟨"[model not available]", "en", 0⟩
  | .error e => .error e
  | .ok _ =>
      let text := decodeTokens modelTokens
      .ok ⟨if text = "" then "[empty transcription]" else text, "en", pyRound 2 duration⟩

/-- `FaceService.detect_faces` (`face_service.py` lines 86-175): a missing
model file (`FileNotFoundError`) is caught and an **empty list** returned;
otherwise the anchor decode of the opaque model outputs. -/
def detectFaces (env : RuntimeEnv) (σ : ℚ → ℚ) (rawBoxes : List (List ℚ))
    (rawScores : List ℚ) (confThresh : ℚ) : Except InferError (List FaceDetection) :=
  match getSession env faceDetModelName with
  | .error .fileNotFound => .ok []
  | .error e => .error e
  | .ok _ => .ok (detectFacesDecode σ rawBoxes rawScores confThresh)

/-! ## Theorems -/

theorem nmsRunFuel_congr {α : Type} (boxOf : α → Box) (thr : ℚ) :
    ∀ {n m : ℕ} {l : List α}, l.length ≤ n → l.length ≤ m →
      nmsRunFuel boxOf thr n l = nmsRunFuel boxOf thr m l := by
  intro n
  induction n with
  | zero =>
      intro m l hn _
      have : l = [] := List.eq_nil_of_length_eq_zero (Nat.le_zero.mp hn)
      subst this
      cases m <;> rfl
  | succ n ih =>
      intro m l hn hm
      match l with
      | [] => cases m <;> rfl
      | c :: rest =>
          match m with
          | 0 => exact absurd hm (by simp)
          | m + 1 =>
              simp only [nmsRunFuel]
              refine congrArg _ (ih ?_ ?_)
              · exact le_trans (List.length_filter_le _ _) (Nat.le_of_succ_le_succ hn)
              · exact le_trans (List.length_filter_le _ _) (Nat.le_of_succ_le_succ hm)

@[simp] theorem nmsRun_nil {α : Type} (boxOf : α → Box) (thr : ℚ) :
    nmsRun boxOf thr ([] : List α) = [] := rfl

theorem nmsRun_cons {α : Type} (boxOf : α → Box) (thr : ℚ) (c : α) (rest : List α) :
    nmsRun boxOf thr (c :: rest) =
      c :: nmsRun boxOf thr (rest.filter fun d => decide (iouQ (boxOf c) (boxOf d) ≤ thr)) := by
  simp only [nmsRun, List.length_cons, nmsRunFuel]
  exact congrArg _ (nmsRunFuel_congr boxOf thr (List.length_filter_le _ _) le_rfl)

theorem nmsRun_sublist_aux {α : Type} (boxOf : α → Box) (thr : ℚ) :
    ∀ (n : ℕ) (l : List α), l.length ≤ n → List.Sublist (nmsRun boxOf thr l) l := by
  intro n
  induction n with
  | zero =>
      intro l h
      have : l = [] := List.eq_nil_of_length_eq_zero (Nat.le_zero.mp h)
      simp [this]
  | succ n ih =>
      intro l h
      match l with
      | [] => simp
      | c :: rest =>
          rw [nmsRun_cons]
          refine List.Sublist.cons₂ c ?_
          exact ((ih _ (le_trans (List.length_filter_le _ _)
            (Nat.le_of_succ_le_succ h))).trans (List.filter_sublist _))

/-- The kept list is a sublist of the (ordered) candidate list. -/
theorem nmsRun_sublist {α : Type} (boxOf : α → Box) (thr : ℚ) (l : List α) :
    List.Sublist (nmsRun boxOf thr l) l :=
  nmsRun_sublist_aux boxOf thr l.length l le_rfl

theorem nmsRun_subset {α : Type} (boxOf : α → Box) (thr : ℚ) {l : List α} {c : α}
    (h : c ∈ nmsRun boxOf thr l) : c ∈ l :=
  (nmsRun_sublist boxOf thr l).subset h

theorem nmsRun_pairwise {α : Type} (boxOf : α → Box) (thr : ℚ) {l : List α}
    {R : α → α → Prop} (h : l.Pairwise R) : (nmsRun boxOf thr l).Pairwise R :=
  h.sublist (nmsRun_sublist boxOf thr l)

theorem sortByScoreDesc_sorted {α : Type} (scoreOf : α → ℚ) (l : List α) :
    List.Sorted (fun a b => scoreOf b ≤ scoreOf a) (sortByScoreDesc scoreOf l) := by
  haveI : IsTotal α (fun a b => scoreOf b ≤ scoreOf a) :=
    ⟨fun a b => le_total (scoreOf b) (scoreOf a)⟩
  haveI : IsTrans α (fun a b => scoreOf b ≤ scoreOf a) :=
    ⟨fun _ _ _ hab hbc => le_trans hbc hab⟩
  exact List.sorted_insertionSort _ l

theorem sortByScoreDesc_perm {α : Type} (scoreOf : α → ℚ) (l : List α) :
    List.Perm (sortByScoreDesc scoreOf l) l :=
  List.perm_insertionSort _ l

theorem orderedInsert_eq_cons_of_forall {α : Type} {r : α → α → Prop} [DecidableRel r]
    (a : α) (l : List α) (h : ∀ c ∈ l, r a c) : l.orderedInsert r a = a :: l := by
  cases l with
  | nil => rfl
  | cons c l => simp [List.orderedInsert, h c (List.mem_cons_self c l)]

theorem filter_comm' {α : Type} (p q : α → Bool) (l : List α) :
    (l.filter p).filter q = (l.filter q).filter p := by
  induction l with
  | nil => rfl
  | cons a l ih =>
      by_cases hp : p a <;> by_cases hq : q a <;>
        simp [List.filter_cons, hp, hq, ih]

theorem filter_orderedInsert_of_pos {α : Type} {r : α → α → Prop} [DecidableRel r]
    [IsTrans α r] (p : α → Bool) (a : α) :
    ∀ (l : List α), List.Sorted r l → p a = true →
      (l.orderedInsert r a).filter p = (l.filter p).orderedInsert r a := by
  intro l
  induction l with
  | nil => intro _ hpa; simp [List.orderedInsert, hpa]
  | cons b l ih =>
      intro hsort hpa
      by_cases hr : r a b
      · by_cases hpb : p b
        · simp [List.orderedInsert, hr, List.filter_cons, hpa, hpb]
        · have hforall : ∀ c ∈ l.filter p, r a c := by
            intro c hc
            exact Trans.trans hr (List.rel_of_sorted_cons hsort c (List.mem_of_mem_filter hc))
          simp only [List.orderedInsert, if_pos hr, List.filter_cons, hpa, hpb]
          simp only [if_true, Bool.false_eq_true, if_false]
          rw [orderedInsert_eq_cons_of_forall a _ hforall]
      · by_cases hpb : p b
        · simp [List.orderedInsert, if_neg hr, List.filter_cons, hpb,
            ih hsort.of_cons hpa, hr]
        · simp only [List.orderedInsert, if_neg hr, List.filter_cons, hpb,
            Bool.false_eq_true, if_false]
          exact ih hsort.of_cons hpa

theorem filter_orderedInsert_of_neg {α : Type} {r : α → α → Prop} [DecidableRel r]
    (p : α → Bool) (a : α) :
    ∀ (l : List α), p a = false → (l.orderedInsert r a).filter p = l.filter p := by
  intro l
  induction l with
  | nil => intro hpa; simp [List.orderedInsert, hpa]
  | cons b l ih =>
      intro hpa
      by_cases hr : r a b
      · simp [List.orderedInsert, hr, List.filter_cons, hpa]
      · by_cases hpb : p b <;> simp [List.orderedInsert, hr, List.filter_cons, hpa, hpb, ih]

theorem insertionSort_filter {α : Type} {r : α → α → Prop} [DecidableRel r]
    [IsTotal α r] [IsTrans α r] (p : α → Bool) (l : List α) :
    (l.filter p).insertionSort r = (l.insertionSort r).filter p := by
  induction l with
  | nil => rfl
  | cons a l ih =>
      by_cases hpa : p a
      · simp only [List.filter_cons, hpa, if_true, List.insertionSort, ih]
        rw [filter_orderedInsert_of_pos p a _ (List.sorted_insertionSort r l) hpa]
      · simp only [List.filter_cons, hpa, Bool.false_eq_true, if_false, List.insertionSort, ih]
        rw [filter_orderedInsert_of_neg p a _ (by simpa using hpa)]

theorem nmsRun_filter_aux {α : Type} (boxOf : α → Box) (scoreOf : α → ℚ) (thr : ℚ)
    (p : α → Bool) (hp : ∀ a b, scoreOf b ≤ scoreOf a → p b = true → p a = true) :
    ∀ (n : ℕ) (l : List α), l.length ≤ n →
      List.Sorted (fun a b => scoreOf b ≤ scoreOf a) l →
      nmsRun boxOf thr (l.filter p) = (nmsRun boxOf thr l).filter p := by
  intro n
  induction n with
  | zero =>
      intro l h _
      have : l = [] := List.eq_nil_of_length_eq_zero (Nat.le_zero.mp h)
      simp [this]
  | succ n ih =>
      intro l h hsort
      match l with
      | [] => simp
      | a :: rest =>
          by_cases hpa : p a
          · rw [List.filter_cons_of_pos hpa, nmsRun_cons, nmsRun_cons,
              filter_comm',
              ih _ (le_trans (List.length_filter_le _ _) (Nat.le_of_succ_le_succ h))
                (hsort.of_cons.filter _),
              List.filter_cons_of_pos hpa]
          · have hrest : ∀ b ∈ rest, p b = false := by
              intro b hb
              by_contra hcontra
              have hpb : p b = true := by
                cases hpbv : p b with
                | false => exact absurd hpbv hcontra
                | true => rfl
              exact absurd (hp a b (List.rel_of_sorted_cons hsort b hb) hpb)
                (by simpa using hpa)
            have h1 : (a :: rest).filter p = [] := by
              rw [List.filter_cons_of_neg (by simpa using hpa)]
              exact List.filter_eq_nil_iff.mpr fun b hb => by simp [hrest b hb]
            have h2 : (nmsRun boxOf thr (a :: rest)).filter p = [] := by
              refine List.filter_eq_nil_iff.mpr fun b hb => ?_
              have hmem := nmsRun_subset boxOf thr hb
              rcases List.mem_cons.mp hmem with hba | hbr
              · subst hba; simpa using hpa
              · simp [hrest b hbr]
            rw [h1, h2, nmsRun_nil]

/-- Filtering candidates by a score threshold commutes with greedy NMS on a
descending-sorted list: removing only tail (below-threshold) candidates does
not change which of the remaining candidates are kept. -/
theorem nmsRun_filter {α : Type} (boxOf : α → Box) (scoreOf : α → ℚ) (thr : ℚ)
    (p : α → Bool) (hp : ∀ a b, scoreOf b ≤ scoreOf a → p b = true → p a = true)
    (l : List α) (hsort : List.Sorted (fun a b => scoreOf b ≤ scoreOf a) l) :
    nmsRun boxOf thr (l.filter p) = (nmsRun boxOf thr l).filter p :=
  nmsRun_filter_aux boxOf scoreOf thr p hp l.length l le_rfl hsort


/-! ### C4 — NMS IoU-threshold monotonicity -/

theorem nmsRun_mem_mono_of_len_le_two {α : Type} (boxOf : α → Box) {i1 i2 : ℚ}
    (hle : i1 ≤ i2) :
    ∀ (s : List α), s.length ≤ 2 → ∀ c ∈ nmsRun boxOf i1 s, c ∈ nmsRun boxOf i2 s := by
  intro s hlen c hc
  match s with
  | [] => simp at hc
  | [a] =>
      simpa only [nmsRun_cons, List.filter_nil, nmsRun_nil] using hc
  | [a, b] =>
      by_cases hiou : iouQ (boxOf a) (boxOf b) ≤ i1
      · have hiou2 : iouQ (boxOf a) (boxOf b) ≤ i2 := le_trans hiou hle
        simp only [nmsRun_cons, List.filter_cons, List.filter_nil,
          decide_eq_true_eq, hiou, hiou2, if_true, nmsRun_nil] at hc ⊢
        simpa using hc
      · simp only [nmsRun_cons, List.filter_cons, List.filter_nil,
          decide_eq_true_eq, hiou, if_false, nmsRun_nil] at hc
        by_cases hiou2 : iouQ (boxOf a) (boxOf b) ≤ i2 <;>
          simp_all [nmsRun_cons, List.filter_cons, List.filter_nil, hiou2]
  | a :: b :: d :: t => simp at hlen

/-- C4 (counterexample): greedy NMS keep-sets are **not** monotone in the IoU
threshold.  Pool: `A = [-2,0,2,1]` (score 0.9), `B = [0,0,4,1]` (0.8),
`C = [1,0,5,1]` (0.7), with `IoU(A,B) = 1/3`, `IoU(A,C) = 1/7`,
`IoU(B,C) = 3/5`.  At threshold `1/5`, `A` suppresses `B` and the keep set
is `{A, C}`; at the looser threshold `1/2`, `B` survives `A` and then
suppresses `C`, so the keep set is `{A, B}` — not a superset. -/
theorem c4_counterexample :
    ¬ (∀ (cands : List (Box × ℚ)) (i1 i2 : ℚ), i1 < i2 →
        ∀ c ∈ nmsKeep Prod.fst Prod.snd i1 cands, c ∈ nmsKeep Prod.fst Prod.snd i2 cands) := by
  intro h
  have hmem : (⟨1, 0, 5, 1⟩, (7 : ℚ)/10) ∈ nmsKeep Prod.fst Prod.snd (1/5)
      [(⟨-2, 0, 2, 1⟩, 9/10), (⟨0, 0, 4, 1⟩, 8/10), (⟨1, 0, 5, 1⟩, 7/10)] := by
    with_unfolding_all decide
  have := h [(⟨-2, 0, 2, 1⟩, 9/10), (⟨0, 0, 4, 1⟩, 8/10), (⟨1, 0, 5, 1⟩, 7/10)]
    (1/5) (1/2) (by norm_num) _ hmem
  exact absurd this (by with_unfolding_all decide)

/-- C4 (amended): over a candidate pool of **at most two** boxes, the set
kept by greedy NMS at a larger IoU threshold `i2 ≥ i1` is a superset of the
set kept at `i1` (the highest-scoring box is always kept, and the other box
survives at `i2` whenever it survives at `i1`).  For pools of three or more
candidates the property fails (`c4_counterexample`). -/
theorem c4_theorem {α : Type} (boxOf : α → Box) (scoreOf : α → ℚ)
    (cands : List α) (hlen : cands.length ≤ 2) {i1 i2 : ℚ} (hle : i1 ≤ i2) :
    ∀ c ∈ nmsKeep boxOf scoreOf i1 cands, c ∈ nmsKeep boxOf scoreOf i2 cands := by
  intro c hc
  have hslen : (sortByScoreDesc scoreOf cands).length ≤ 2 := by
    simpa [sortByScoreDesc, List.length_insertionSort] using hlen
  exact nmsRun_mem_mono_of_len_le_two boxOf hle _ hslen c hc

/-- C4 (witness): on the two-box pool `{A = [-2,0,2,1] (0.9), B = [0,0,4,1]
(0.8)}` with `IoU(A,B) = 1/3`, box `B` is kept at threshold `2/5` and hence,
by `c4_theorem`, also at threshold `1/2`. -/
theorem c4_witness :
    (⟨0, 0, 4, 1⟩, (8 : ℚ)/10) ∈ nmsKeep Prod.fst Prod.snd (1/2)
      [(⟨-2, 0, 2, 1⟩, (9 : ℚ)/10), (⟨0, 0, 4, 1⟩, (8 : ℚ)/10)] :=
  @c4_theorem (Box × ℚ) Prod.fst Prod.snd
    [(⟨-2, 0, 2, 1⟩, (9 : ℚ)/10), (⟨0, 0, 4, 1⟩, (8 : ℚ)/10)] (by decide)
    (2/5) (1/2) (by norm_num) _ (by with_unfolding_all decide)


/-! ### Rounding and clipping lemmas -/

theorem floor_le_roundHalfEven (q : ℚ) : ⌊q⌋ ≤ roundHalfEven q := by
  unfold roundHalfEven
  split_ifs <;> omega

theorem roundHalfEven_le_floor_add_one (q : ℚ) : roundHalfEven q ≤ ⌊q⌋ + 1 := by
  unfold roundHalfEven
  split_ifs <;> omega

theorem roundHalfEven_le_ceil (q : ℚ) : roundHalfEven q ≤ ⌈q⌉ := by
  unfold roundHalfEven
  split_ifs with h1 h2 h3
  · exact Int.floor_le_ceil q
  · have : (⌊q⌋ : ℚ) < q := by linarith [Int.fract_nonneg q]
    exact Int.lt_ceil.mpr this
  · exact Int.floor_le_ceil q
  · have : (⌊q⌋ : ℚ) < q := by
      have hr : q - (⌊q⌋ : ℚ) = 1/2 := le_antisymm (not_lt.mp h2) (not_lt.mp h1)
      linarith
    exact Int.lt_ceil.mpr this

theorem roundHalfEven_mono {x y : ℚ} (hxy : x ≤ y) : roundHalfEven x ≤ roundHalfEven y := by
  rcases lt_or_eq_of_le (Int.floor_le_floor hxy) with hf | hf
  · calc roundHalfEven x ≤ ⌊x⌋ + 1 := roundHalfEven_le_floor_add_one x
      _ ≤ ⌊y⌋ := hf
      _ ≤ roundHalfEven y := floor_le_roundHalfEven y
  · by_cases hx1 : x - (⌊x⌋ : ℚ) < 1/2
    · have hrx : roundHalfEven x = ⌊x⌋ := by unfold roundHalfEven; rw [if_pos hx1]
      rw [hrx, hf]
      exact floor_le_roundHalfEven y
    · by_cases hy1 : y - (⌊y⌋ : ℚ) < 1/2
      · exfalso
        apply hx1
        have hcast : ((⌊x⌋ : ℤ) : ℚ) = ((⌊y⌋ : ℤ) : ℚ) := by exact_mod_cast hf
        rw [hcast]
        linarith
      · by_cases hy2 : 1/2 < y - (⌊y⌋ : ℚ)
        · have hry : roundHalfEven y = ⌊y⌋ + 1 := by
            unfold roundHalfEven
            rw [if_neg hy1, if_pos hy2]
          rw [hry, ← hf]
          exact roundHalfEven_le_floor_add_one x
        · have hcast : ((⌊x⌋ : ℤ) : ℚ) = ((⌊y⌋ : ℤ) : ℚ) := by exact_mod_cast hf
          have h1 : y - (⌊y⌋ : ℚ) = 1/2 := le_antisymm (not_lt.mp hy2) (not_lt.mp hy1)
          have h2 : x - (⌊x⌋ : ℚ) = 1/2 := by
            refine le_antisymm ?_ (not_lt.mp hx1)
            rw [hcast]
            linarith
          have hxy' : x = y := by
            rw [hcast] at h2
            linarith
          rw [hxy']

theorem roundHalfEven_nonneg {q : ℚ} (hq : 0 ≤ q) : 0 ≤ roundHalfEven q := by
  have := floor_le_roundHalfEven q
  have h0 : (0 : ℤ) ≤ ⌊q⌋ := Int.floor_nonneg.mpr hq
  omega

theorem roundHalfEven_le_of_le_intCast {q : ℚ} {n : ℤ} (hq : q ≤ (n : ℚ)) :
    roundHalfEven q ≤ n := by
  have h1 := roundHalfEven_le_ceil q
  have h2 : ⌈q⌉ ≤ n := Int.ceil_le.mpr hq
  omega

theorem pyRound_mono (k : ℕ) {x y : ℚ} (hxy : x ≤ y) : pyRound k x ≤ pyRound k y := by
  unfold pyRound
  have hpow : (0 : ℚ) < 10 ^ k := by positivity
  have hmul : x * 10 ^ k ≤ y * 10 ^ k := by
    exact mul_le_mul_of_nonneg_right hxy (le_of_lt hpow)
  have h2 : ((roundHalfEven (x * 10 ^ k) : ℤ) : ℚ) ≤ ((roundHalfEven (y * 10 ^ k) : ℤ) : ℚ) := by
    exact_mod_cast roundHalfEven_mono hmul
  exact (div_le_div_iff_of_pos_right hpow).mpr h2

theorem pyRound_nonneg (k : ℕ) {q : ℚ} (hq : 0 ≤ q) : 0 ≤ pyRound k q := by
  unfold pyRound
  have hpow : (0 : ℚ) < 10 ^ k := by positivity
  have : (0 : ℤ) ≤ roundHalfEven (q * 10 ^ k) :=
    roundHalfEven_nonneg (by positivity)
  positivity

theorem pyRound_le_one (k : ℕ) {q : ℚ} (hq : q ≤ 1) : pyRound k q ≤ 1 := by
  unfold pyRound
  have hpow : (0 : ℚ) < 10 ^ k := by positivity
  rw [div_le_one hpow]
  have hle : q * 10 ^ k ≤ ((10 ^ k : ℤ) : ℚ) := by
    push_cast
    nlinarith
  have := roundHalfEven_le_of_le_intCast hle
  exact_mod_cast this

theorem clip01_nonneg (q : ℚ) : 0 ≤ clip01 q := by
  unfold clip01
  rcases le_total (max q 0) 1 with h | h <;> simp [min_def, h, le_max_right]

theorem clip01_le_one (q : ℚ) : clip01 q ≤ 1 := min_le_right _ _

theorem clip01_mono {x y : ℚ} (hxy : x ≤ y) : clip01 x ≤ clip01 y :=
  min_le_min (max_le_max hxy le_rfl) le_rfl


/-! ### C6 — confidence-threshold monotonicity of the box decoder -/

theorem postprocess_length (preds : List (List ℚ)) (origH origW : ℕ) (t i : ℚ) :
    (postprocess preds origH origW t i).length =
      (nmsKeep Cand.box Cand.conf i ((preds.map rowToCand).filter fun c => decide (t ≤ c.conf))).length := by
  unfold postprocess
  by_cases h1 : ((preds.map rowToCand).filter fun c => decide (t ≤ c.conf)) = []
  · rw [if_pos h1, h1]
    simp [nmsKeep, sortByScoreDesc]
  · rw [if_neg h1]
    by_cases h2 : nmsKeep Cand.box Cand.conf i ((preds.map rowToCand).filter fun c => decide (t ≤ c.conf)) = []
    · rw [if_pos h2, h2]
      simp
    · rw [if_neg h2, List.length_map]

/-- C6: for confidence thresholds `t1 ≤ t2`, the box decoder returns at most
as many detections at `t2` as at `t1`.  Raising the threshold removes only
the lowest-confidence candidates; on the score-sorted worklist those are a
tail, and greedy NMS decisions on the surviving prefix are unchanged, so the
keep set at `t2` is exactly the keep set at `t1` restricted to candidates
above `t2`. -/
theorem c6_theorem (preds : List (List ℚ)) (origH origW : ℕ) (iouThresh : ℚ)
    {t1 t2 : ℚ} (h : t1 ≤ t2) :
    (postprocess preds origH origW t2 iouThresh).length ≤
      (postprocess preds origH origW t1 iouThresh).length := by
  rw [postprocess_length, postprocess_length]
  have hfilter : (preds.map rowToCand).filter (fun c => decide (t2 ≤ c.conf)) =
      ((preds.map rowToCand).filter fun c => decide (t1 ≤ c.conf)).filter
        (fun c => decide (t2 ≤ c.conf)) := by
    rw [List.filter_filter]
    apply List.filter_congr
    intro c _
    by_cases hc : t2 ≤ c.conf
    · simp [hc, le_trans h hc]
    · simp [hc]
  haveI : IsTotal Cand (fun a b => Cand.conf b ≤ Cand.conf a) := ⟨fun a b => le_total _ _⟩
  haveI : IsTrans Cand (fun a b => Cand.conf b ≤ Cand.conf a) :=
    ⟨fun _ _ _ hab hbc => le_trans hbc hab⟩
  rw [nmsKeep, nmsKeep, hfilter, sortByScoreDesc, sortByScoreDesc,
    insertionSort_filter,
    nmsRun_filter Cand.box Cand.conf iouThresh _
      (fun a b hab hb => by
        simp only [decide_eq_true_eq] at hb ⊢
        exact le_trans hb hab) _
      (by
        have := sortByScoreDesc_sorted Cand.conf
          ((preds.map rowToCand).filter fun c => decide (t1 ≤ c.conf))
        simpa [sortByScoreDesc] using this)]
  exact List.length_filter_le _ _

/-- C6 (witness): on a one-cell tensor with confidence 0.9, the decoder
returns at most as many detections at threshold 1/2 as at threshold 1/4. -/
theorem c6_witness :
    (postprocess [[320, 320, 100, 100, 9/10]] 640 640 (1/2) (45/100)).length ≤
      (postprocess [[320, 320, 100, 100, 9/10]] 640 640 (1/4) (45/100)).length :=
  c6_theorem [[320, 320, 100, 100, 9/10]] 640 640 (45/100) (by norm_num)

/-! ### C5 — decode functions do not validate tensor shapes -/

/-- C5 (counterexample): the box decoder does **not** fail with a typed
`InvalidInput` on a shape mismatch.  A 1-row, 5-column tensor (instead of
the documented 8400×84) is decoded silently: column 4 is treated as the
only class score and an ordinary detection is returned. -/
theorem c5_counterexample :
    ¬ (∀ (preds : List (List ℚ)) (origH origW : ℕ) (ct it : ℚ),
        ¬ yoloShapeOk preds →
          postprocessE preds origH origW ct it = .error DecodeError.invalidInput) := by
  intro h
  have hbad : ¬ yoloShapeOk [[320, 320, 100, 100, (9:ℚ)/10]] := by
    intro hs
    have := hs.1
    simp at this
  have := h [[320, 320, 100, 100, 9/10]] 640 640 (1/2) (45/100) hbad
  simp [postprocessE] at this

/-- C5 (amended): no decode function performs shape validation.  The box
decoder never surfaces any typed error: for every input tensor — of the
expected shape or not — it returns an ordinary `.ok` result (the face
decoder's `detect_faces` likewise has no failure path for malformed
tensors; its decode returns a plain list).  The `InvalidInput` policy of
spec §7 is a design recommendation (§9), not implemented behaviour. -/
theorem c5_theorem (preds : List (List ℚ)) (origH origW : ℕ) (ct it : ℚ) :
    postprocessE preds origH origW ct it = .ok (postprocess preds origH origW ct it) := rfl


/-! ### C10 — detections are ordered by non-increasing confidence -/

theorem nmsKeep_sorted {α : Type} (boxOf : α → Box) (scoreOf : α → ℚ) (thr : ℚ)
    (l : List α) :
    List.Sorted (fun a b => scoreOf b ≤ scoreOf a) (nmsKeep boxOf scoreOf thr l) :=
  nmsRun_pairwise boxOf thr (sortByScoreDesc_sorted scoreOf l)

/-- C10: both decoders return their detections in non-increasing confidence
order: candidates are processed in descending score order, greedy NMS keeps
a sublist of that order, and the per-detection rounding of the confidence is
monotone. -/
theorem c10_theorem :
    (∀ (preds : List (List ℚ)) (origH origW : ℕ) (ct it : ℚ),
        List.Sorted (fun d e => e.confidence ≤ d.confidence)
          (postprocess preds origH origW ct it)) ∧
    (∀ (σ : ℚ → ℚ) (rawBoxes : List (List ℚ)) (rawScores : List ℚ) (ct : ℚ),
        List.Sorted (fun d e => e.confidence ≤ d.confidence)
          (detectFacesDecode σ rawBoxes rawScores ct)) := by
  constructor
  · intro preds origH origW ct it
    unfold postprocess
    by_cases h1 : ((preds.map rowToCand).filter fun c => decide (ct ≤ c.conf)) = []
    · simp [h1, List.Sorted]
    · rw [if_neg h1]
      by_cases h2 : nmsKeep Cand.box Cand.conf it
          ((preds.map rowToCand).filter fun c => decide (ct ≤ c.conf)) = []
      · simp [h2, List.Sorted]
      · rw [if_neg h2]
        refine List.Pairwise.map _ ?_ (nmsKeep_sorted Cand.box Cand.conf it _)
        intro a b hab
        exact pyRound_mono 4 hab
  · intro σ rawBoxes rawScores ct
    unfold detectFacesDecode
    by_cases h1 : ((faceAnchors.zip (rawBoxes.zip rawScores)).map fun p =>
        ({ anchor := p.1, raw := p.2.1, score := σ p.2.2 } : FaceCand)).filter
          (fun c => decide (ct ≤ c.score)) = []
    · simp [h1, List.Sorted]
    · rw [if_neg h1]
      refine List.Pairwise.map _ ?_ (nmsKeep_sorted FaceCand.box FaceCand.score (3/10) _)
      intro a b hab
      exact pyRound_mono 4 hab

/-! ### C7 — bounding-box invariants of the returned detections -/

theorem mem_postprocess {preds : List (List ℚ)} {origH origW : ℕ} {ct it : ℚ}
    {d : Detection} (hd : d ∈ postprocess preds origH origW ct it) :
    ∃ row ∈ preds, ct ≤ (rowToCand row).conf ∧ d = candToDetection origH origW (rowToCand row) := by
  unfold postprocess at hd
  by_cases h1 : ((preds.map rowToCand).filter fun c => decide (ct ≤ c.conf)) = []
  · rw [if_pos h1] at hd
    simp at hd
  · rw [if_neg h1] at hd
    by_cases h2 : nmsKeep Cand.box Cand.conf it
        ((preds.map rowToCand).filter fun c => decide (ct ≤ c.conf)) = []
    · rw [if_pos h2] at hd
      simp at hd
    · rw [if_neg h2] at hd
      obtain ⟨c, hc, hcd⟩ := List.mem_map.mp hd
      have hc2 : c ∈ ((preds.map rowToCand).filter fun c => decide (ct ≤ c.conf)) := by
        have := nmsRun_subset Cand.box it hc
        exact (List.mem_insertionSort _).mp this
      obtain ⟨hc3, hconf⟩ := List.mem_filter.mp hc2
      obtain ⟨row, hrow, hrc⟩ := List.mem_map.mp hc3
      refine ⟨row, hrow, ?_, ?_⟩
      · rw [hrc]
        exact of_decide_eq_true hconf
      · rw [hrc]
        exact hcd.symm

theorem mem_faceDecode {σ : ℚ → ℚ} {rawBoxes : List (List ℚ)} {rawScores : List ℚ}
    {ct : ℚ} {fd : FaceDetection} (hfd : fd ∈ detectFacesDecode σ rawBoxes rawScores ct) :
    ∃ c : FaceCand, c.raw ∈ rawBoxes ∧ fd = faceCandToDetection c := by
  unfold detectFacesDecode at hfd
  by_cases h1 : ((faceAnchors.zip (rawBoxes.zip rawScores)).map fun p =>
      ({ anchor := p.1, raw := p.2.1, score := σ p.2.2 } : FaceCand)).filter
        (fun c => decide (ct ≤ c.score)) = []
  · rw [if_pos h1] at hfd
    simp at hfd
  · rw [if_neg h1] at hfd
    obtain ⟨c, hc, hcd⟩ := List.mem_map.mp hfd
    have hc2 := (List.mem_insertionSort _).mp (nmsRun_subset FaceCand.box (3/10) hc)
    obtain ⟨hc3, _⟩ := List.mem_filter.mp hc2
    obtain ⟨p, hp, hpc⟩ := List.mem_map.mp hc3
    refine ⟨c, ?_, hcd.symm⟩
    have hz := List.of_mem_zip hp
    have hz2 := List.of_mem_zip hz.2
    rw [← hpc]
    exact hz2.1


/-- C7 (counterexample): the decoders do **not** guarantee `x1 ≤ x2`.  A raw
tensor cell with a negative width channel (`w = -100`) passes the confidence
filter, and its corners `cx ∓ w/2` come out inverted; clipping and rounding
preserve the inversion, so the returned bbox has `x1 = 0.57812 > x2 =
0.42188`. -/
theorem c7_counterexample :
    ¬ (∀ (preds : List (List ℚ)) (origH origW : ℕ) (ct it : ℚ),
        ∀ d ∈ postprocess preds origH origW ct it,
          d.bbox.getD 0 0 ≤ d.bbox.getD 2 0) := by
  intro h
  have heq : postprocess [[320, 320, -100, 100, 9/10]] 640 640 (1/2) (45/100) =
      [⟨0, "person", 9/10, [14453/25000, 10547/25000, 10547/25000, 14453/25000]⟩] := by
    norm_num [postprocess, rowToCand, argmaxIdx, candToDetection, nmsKeep, sortByScoreDesc,
      List.insertionSort, List.orderedInsert, nmsRun, nmsRunFuel, Cand.box, iouQ, Box.area,
      clip01, pyRound, roundHalfEven, cocoClasses, YOLO_INPUT_SIZE, List.filter]
  have hmem : (⟨0, "person", (9:ℚ)/10,
      [14453/25000, 10547/25000, 10547/25000, 14453/25000]⟩ : Detection)
      ∈ postprocess [[320, 320, -100, 100, 9/10]] 640 640 (1/2) (45/100) := by
    rw [heq]
    exact List.mem_singleton_self _
  have := h _ 640 640 (1/2) (45/100) _ hmem
  norm_num [List.getD] at this

/-- C7 (amended): every `Detection.bbox` and `FaceDetection.bbox` coordinate
returned by the decoders lies in `[0, 1]` (the clip step guarantees this for
arbitrary tensors); the orderings `x1 ≤ x2` and `y1 ≤ y2` additionally hold
whenever the raw tensor's width and height channels (column 2 resp. 3) are
nonnegative — a negative extent inverts the corners
(`c7_counterexample`). -/
theorem c7_theorem :
    (∀ (preds : List (List ℚ)) (origH origW : ℕ) (ct it : ℚ),
      ∀ d ∈ postprocess preds origH origW ct it,
        (∀ v ∈ d.bbox, 0 ≤ v ∧ v ≤ 1) ∧
        ((∀ row ∈ preds, 0 ≤ row.getD 2 0 ∧ 0 ≤ row.getD 3 0) →
           d.bbox.getD 0 0 ≤ d.bbox.getD 2 0 ∧ d.bbox.getD 1 0 ≤ d.bbox.getD 3 0)) ∧
    (∀ (σ : ℚ → ℚ) (rawBoxes : List (List ℚ)) (rawScores : List ℚ) (ct : ℚ),
      ∀ fd ∈ detectFacesDecode σ rawBoxes rawScores ct,
        (∀ v ∈ fd.bbox, 0 ≤ v ∧ v ≤ 1) ∧
        ((∀ row ∈ rawBoxes, 0 ≤ row.getD 2 0 ∧ 0 ≤ row.getD 3 0) →
           fd.bbox.getD 0 0 ≤ fd.bbox.getD 2 0 ∧ fd.bbox.getD 1 0 ≤ fd.bbox.getD 3 0)) := by
  constructor
  · intro preds origH origW ct it d hd
    obtain ⟨row, hrow, hconf, hdc⟩ := mem_postprocess hd
    subst hdc
    constructor
    · intro v hv
      simp only [candToDetection, List.mem_cons, List.not_mem_nil, or_false] at hv
      rcases hv with h | h | h | h <;> subst h <;>
        exact ⟨pyRound_nonneg 5 (clip01_nonneg _), pyRound_le_one 5 (clip01_le_one _)⟩
    · intro hwh
      have hw : (0 : ℚ) ≤ (rowToCand row).w := by
        have := (hwh row hrow).1
        simpa [rowToCand] using this
      have hh : (0 : ℚ) ≤ (rowToCand row).h := by
        have := (hwh row hrow).2
        simpa [rowToCand] using this
      have hsx : (0 : ℚ) ≤ (origW : ℚ) / (YOLO_INPUT_SIZE : ℚ) :=
        div_nonneg (Nat.cast_nonneg origW) (Nat.cast_nonneg YOLO_INPUT_SIZE)
      have hsy : (0 : ℚ) ≤ (origH : ℚ) / (YOLO_INPUT_SIZE : ℚ) :=
        div_nonneg (Nat.cast_nonneg origH) (Nat.cast_nonneg YOLO_INPUT_SIZE)
      have hbx : (rowToCand row).box.x1 ≤ (rowToCand row).box.x2 := by
        simp only [Cand.box]
        linarith
      have hby : (rowToCand row).box.y1 ≤ (rowToCand row).box.y2 := by
        simp only [Cand.box]
        linarith
      have hstep : ∀ (a b s : ℚ) (n : ℕ), a ≤ b → 0 ≤ s →
          pyRound 5 (clip01 (a * s / (n : ℚ))) ≤ pyRound 5 (clip01 (b * s / (n : ℚ))) := by
        intro a b s n hab hs
        refine pyRound_mono 5 (clip01_mono ?_)
        rw [div_eq_mul_inv, div_eq_mul_inv]
        exact mul_le_mul_of_nonneg_right (mul_le_mul_of_nonneg_right hab hs)
          (inv_nonneg.mpr (Nat.cast_nonneg n))
      constructor
      · simpa [candToDetection, List.getD] using
          hstep _ _ ((origW : ℚ) / (YOLO_INPUT_SIZE : ℚ)) origW hbx hsx
      · simpa [candToDetection, List.getD] using
          hstep _ _ ((origH : ℚ) / (YOLO_INPUT_SIZE : ℚ)) origH hby hsy
  · intro σ rawBoxes rawScores ct fd hfd
    obtain ⟨c, hcraw, hfdc⟩ := mem_faceDecode hfd
    subst hfdc
    constructor
    · intro v hv
      simp only [faceCandToDetection, List.mem_cons, List.not_mem_nil, or_false] at hv
      rcases hv with h | h | h | h <;> subst h <;>
        exact ⟨clip01_nonneg _, clip01_le_one _⟩
    · intro hwh
      have hw : (0 : ℚ) ≤ c.raw.getD 2 0 := (hwh c.raw hcraw).1
      have hh : (0 : ℚ) ≤ c.raw.getD 3 0 := (hwh c.raw hcraw).2
      have hbx : c.box.x1 ≤ c.box.x2 := by
        simp only [FaceCand.box]
        have : (0 : ℚ) ≤ c.raw.getD 2 0 / 128 := by positivity
        linarith
      have hby : c.box.y1 ≤ c.box.y2 := by
        simp only [FaceCand.box]
        have : (0 : ℚ) ≤ c.raw.getD 3 0 / 128 := by positivity
        linarith
      exact ⟨by simpa [faceCandToDetection, List.getD] using clip01_mono hbx,
             by simpa [faceCandToDetection, List.getD] using clip01_mono hby⟩

/-- C7 (witness): on a one-cell tensor with positive extents the returned
box satisfies the full invariant `0 ≤ x1 ≤ x2 ≤ 1`. -/
theorem c7_witness :
    (⟨0, "person", (9:ℚ)/10,
      [10547/25000, 10547/25000, 14453/25000, 14453/25000]⟩ : Detection).bbox.getD 0 0 ≤
    (⟨0, "person", (9:ℚ)/10,
      [10547/25000, 10547/25000, 14453/25000, 14453/25000]⟩ : Detection).bbox.getD 2 0 :=
  ((c7_theorem.1 [[320, 320, 100, 100, 9/10]] 640 640 (1/2) (45/100) _
    (by
      have heq : postprocess [[320, 320, 100, 100, 9/10]] 640 640 (1/2) (45/100) =
          [⟨0, "person", 9/10, [10547/25000, 10547/25000, 14453/25000, 14453/25000]⟩] := by
        norm_num [postprocess, rowToCand, argmaxIdx, candToDetection, nmsKeep, sortByScoreDesc,
          List.insertionSort, List.orderedInsert, nmsRun, nmsRunFuel, Cand.box, iouQ, Box.area,
          clip01, pyRound, roundHalfEven, cocoClasses, YOLO_INPUT_SIZE, List.filter]
      rw [heq]
      exact List.mem_singleton_self _)).2
    (by
      intro row hrow
      simp only [List.mem_singleton] at hrow
      subst hrow
      norm_num)).1


/-! ### C1 — behaviour when the model file is absent -/

/-- C1 (counterexample): with onnxruntime available but **no model file on
disk** (and an empty session cache), none of the three operations fails
with the `ModelUnavailable` (`FileNotFoundError`) condition: `detect`
returns the synthetic demo detections, `transcribe` returns the placeholder
transcription, and `detect_faces` returns an empty list. -/
theorem c1_counterexample :
    yoloDetect ⟨true, fun _ => false, []⟩ [] [] 640 640 = .ok [] ∧
    transcribe ⟨true, fun _ => false, []⟩ [] 0 = .ok ⟨"[model not available]", "en", 0⟩ ∧
    detectFaces ⟨true, fun _ => false, []⟩ (fun x => x) [] [] (1/2) = .ok [] ∧
    yoloDetect ⟨true, fun _ => false, []⟩ [] [] 640 640 ≠ .error InferError.fileNotFound ∧
    transcribe ⟨true, fun _ => false, []⟩ [] 0 ≠ .error InferError.fileNotFound ∧
    detectFaces ⟨true, fun _ => false, []⟩ (fun x => x) [] [] (1/2) ≠
      .error InferError.fileNotFound := by
  refine ⟨rfl, rfl, rfl, by simp [yoloDetect], by simp [transcribe, getSession],
    by simp [detectFaces, getSession]⟩

/-- C1 (amended): when the requested model file is absent, the missing-model
condition is handled **locally** and a substitute result is returned in
every service: `YOLOService.detect` short-circuits to the demo detections,
`WhisperService.transcribe` catches `FileNotFoundError` and returns
`Transcription("[model not available]", "en", 0.0)`, and
`FaceService.detect_faces` catches it and returns `[]`.  No
`ModelUnavailable` condition propagates to the caller. -/
theorem c1_theorem (env : RuntimeEnv) (demo : List Detection) (modelOutput : List (List ℚ))
    (origH origW : ℕ) (toks : List ℤ) (dur : ℚ) (σ : ℚ → ℚ)
    (rawBoxes : List (List ℚ)) (rawScores : List ℚ) (ct : ℚ)
    (hort : env.ortAvailable = true)
    (hyolo : env.modelFileExists yoloModelName = false)
    (hwhisper : env.modelFileExists whisperModelName = false)
    (hface : env.modelFileExists faceDetModelName = false)
    (hcw : env.cachedSessions.contains whisperModelName = false)
    (hcf : env.cachedSessions.contains faceDetModelName = false) :
    yoloDetect env demo modelOutput origH origW = .ok demo ∧
    transcribe env toks dur = .ok ⟨"[model not available]", "en", 0⟩ ∧
    detectFaces env σ rawBoxes rawScores ct = .ok [] := by
  have hcw2 : whisperModelName ∉ env.cachedSessions := by simpa using hcw
  have hcf2 : faceDetModelName ∉ env.cachedSessions := by simpa using hcf
  refine ⟨?_, ?_, ?_⟩
  · simp [yoloDetect, hyolo]
  · simp [transcribe, getSession, hort, hwhisper, hcw2]
  · simp [detectFaces, getSession, hort, hface, hcf2]

/-- C1 (witness): the amended behaviour at a concrete environment with no
model files and an empty cache. -/
theorem c1_witness :
    yoloDetect ⟨true, fun _ => false, []⟩ [] [] 640 640 = .ok [] ∧
    transcribe ⟨true, fun _ => false, []⟩ [] 0 = .ok ⟨"[model not available]", "en", 0⟩ ∧
    detectFaces ⟨true, fun _ => false, []⟩ (fun x => x) [] [] (1/2) = .ok [] :=
  c1_theorem ⟨true, fun _ => false, []⟩ [] [] 640 640 [] 0 (fun x => x) [] [] (1/2)
    rfl rfl rfl rfl rfl rfl

/-! ### C2 — whisper spectrogram frame count -/

/-- C2: the source pads every waveform to `WHISPER_MAX_FRAMES = 480000`
samples (`16000 * 30`), but its uncentred framing then yields
`1 + (480000 - 400) / 160 = 2998` frames — **not** the 3000 frames its own
docstring and comment promise, and not the `(80, 3000)` spectrogram the
claim states.  The specification's formula
`target_frame_count * hop + window - hop = 480240` samples would give
exactly 3000 frames. -/
theorem c2_theorem :
    (padOrTruncateAudio (List.replicate 16000 0)).length = WHISPER_MAX_FRAMES ∧
    whisperFrameCount WHISPER_MAX_FRAMES = 2998 ∧
    whisperFrameCount (padOrTruncateAudio (List.replicate 16000 0)).length ≠ 3000 ∧
    specTargetSampleCount 3000 WHISPER_HOP_LENGTH WHISPER_N_FFT = 480240 ∧
    whisperFrameCount (specTargetSampleCount 3000 WHISPER_HOP_LENGTH WHISPER_N_FFT) = 3000 := by
  have hcond : ¬ (WHISPER_MAX_FRAMES < (List.replicate 16000 (0:ℚ)).length) := by
    rw [List.length_replicate]
    norm_num [WHISPER_MAX_FRAMES, WHISPER_SAMPLE_RATE, WHISPER_CHUNK_LENGTH_S]
  have hpad : (padOrTruncateAudio (List.replicate 16000 (0:ℚ))).length = WHISPER_MAX_FRAMES := by
    unfold padOrTruncateAudio
    rw [if_neg hcond, List.length_append, List.length_replicate, List.length_replicate]
    norm_num [WHISPER_MAX_FRAMES, WHISPER_SAMPLE_RATE, WHISPER_CHUNK_LENGTH_S]
  refine ⟨hpad, by decide, ?_, by decide, by decide⟩
  rw [hpad]
  decide

/-! ### C3 — greedy token decoding -/

theorem takeWhile_ne_eot :
    ∀ (pre post : List ℤ), eotTokenId ∉ pre →
      (pre ++ eotTokenId :: post).takeWhile (fun t => !(t == eotTokenId)) = pre := by
  intro pre post
  induction pre with
  | nil => intro _; simp
  | cons a pre ih =>
      intro hpre
      have ha : (a == eotTokenId) = false := by
        simp only [beq_eq_false_iff_ne, ne_eq]
        intro h
        exact hpre (by simp [h])
      simp only [List.cons_append, List.takeWhile_cons, ha, Bool.not_false, if_true]
      rw [ih fun h => hpre (List.mem_cons_of_mem _ h)]

/-- C3 (counterexample): the token sequence `[72, 101, 108, 108, 111, EOS,
999]` does **not** decode to `"Hello"`.  The byte table is the GPT-2
byte-shuffled order, not the identity on ASCII: token 72 maps to byte
`33 + 72 = 105` (`i`), and tokens 101/108/108/111 map to bytes ≥ 128, which
are invalid as single UTF-8 bytes and decode to U+FFFD. -/
theorem c3_counterexample :
    decodeTokens [72, 101, 108, 108, 111, 50256, 999] = "i\uFFFD\uFFFD\uFFFD\uFFFD" ∧
    decodeTokens [72, 101, 108, 108, 111, 50256, 999] ≠ "Hello" := by
  constructor <;> with_unfolding_all decide

/-- C3 (amended): the decoder truncates at the first end-of-sequence token
and ignores everything after it, and byte-range token IDs map through the
GPT-2 byte table (token `t` ↦ byte `bs[t]`), under which the sequence
decoding to `"Hello"` is `[39, 68, 75, 75, 78]` (`ord(c) - 33` for each
printable ASCII character), not `[72, 101, 108, 108, 111]`. -/
theorem c3_theorem :
    (∀ pre post : List ℤ, eotTokenId ∉ pre →
        decodeTokens (pre ++ eotTokenId :: post) = greedyDecodeTokens pre) ∧
    decodeTokens [39, 68, 75, 75, 78, 50256, 999] = "Hello" := by
  constructor
  · intro pre post hpre
    unfold decodeTokens truncateAtEOT
    rw [if_pos (by simp), takeWhile_ne_eot pre post hpre]
  · with_unfolding_all decide

/-- C3 (witness): EOT truncation on a concrete sequence. -/
theorem c3_witness :
    decodeTokens [39, 50256] = greedyDecodeTokens [39] :=
  c3_theorem.1 [39] [] (by decide)

/-! ### C8 — spectral values are floored before the logarithm -/

theorem melFilterbank_nonneg (binPoints : ℕ → ℤ) (i j : ℕ) :
    0 ≤ melFilterbank binPoints i j := by
  unfold melFilterbank
  split_ifs with h1 h2
  · exact div_nonneg (by exact_mod_cast Int.sub_nonneg.mpr h1.1)
      (by exact_mod_cast Int.sub_nonneg.mpr (le_of_lt (lt_of_le_of_lt h1.1 h1.2)))
  · exact div_nonneg (by exact_mod_cast Int.sub_nonneg.mpr (le_of_lt h2.2))
      (by exact_mod_cast Int.sub_nonneg.mpr (le_of_lt (lt_of_le_of_lt h2.1 h2.2)))
  · exact le_refl 0

/-- C8: both log arguments are bounded away from zero for **every** input.
The speech path floors the mel power at `1e-10` before `log10`
(`np.maximum(mel_spec, 1e-10)`), and the audio-event path adds `0.001` to a
mel projection that is nonnegative whenever the STFT magnitudes are
(the triangular filterbank weights are nonnegative for arbitrary bin
edges), so no spectrogram value is `log 0 = -inf` or NaN. -/
theorem c8_theorem :
    (∀ p : ℚ, (1 / 10 ^ 10 : ℚ) ≤ whisperClampPower p ∧ 0 < whisperClampPower p) ∧
    (∀ (mag : ℕ → ℕ → ℚ) (binPoints : ℕ → ℤ) (t m : ℕ),
        (∀ a b, 0 ≤ mag a b) →
        (1/1000 : ℚ) ≤ audioLogArg mag binPoints t m ∧
          0 < audioLogArg mag binPoints t m) := by
  constructor
  · intro p
    have h1 : (1 / 10 ^ 10 : ℚ) ≤ whisperClampPower p := le_max_right _ _
    exact ⟨h1, lt_of_lt_of_le (by norm_num) h1⟩
  · intro mag bp t m hmag
    have hsum : (0:ℚ) ≤ ∑ k ∈ Finset.range (STFT_NFFT / 2 + 1),
        mag t k * melFilterbank bp m k :=
      Finset.sum_nonneg fun k _ => mul_nonneg (hmag t k) (melFilterbank_nonneg bp m k)
    unfold audioLogArg
    constructor <;> linarith

/-- C8 (witness): the bounds at the all-zero magnitude matrix. -/
theorem c8_witness :
    (1 / 10 ^ 10 : ℚ) ≤ whisperClampPower 0 ∧
    (1/1000 : ℚ) ≤ audioLogArg (fun _ _ => 0) (fun i => (i : ℤ)) 0 0 :=
  ⟨(c8_theorem.1 0).1,
   (c8_theorem.2 (fun _ _ => 0) (fun i => (i : ℤ)) 0 0 (fun _ _ => le_refl 0)).1⟩

/-! ### C9 — the patch windower never emits zero patches -/

theorem patchWindows_eq_nil_iff (mel : List (List ℚ)) :
    patchWindows mel = [] ↔ mel.length < PATCH_FRAMES := by
  unfold patchWindows
  split_ifs with h
  · simp [h]
  · simp [h]

/-- C9: the patch windower always returns at least one patch; every patch is
shaped `(96, 64)` (given 64-band input rows); and a spectrogram shorter than
one patch is zero-padded on the right to exactly one patch. -/
theorem c9_theorem (mel : List (List ℚ)) (hw : ∀ row ∈ mel, row.length = MEL_BANDS) :
    audioPreprocessPatches mel ≠ [] ∧
    (∀ p ∈ audioPreprocessPatches mel,
        p.length = PATCH_FRAMES ∧ ∀ row ∈ p, row.length = MEL_BANDS) ∧
    (mel.length < PATCH_FRAMES → (audioPreprocessPatches mel).length = 1) := by
  unfold audioPreprocessPatches
  by_cases h : patchWindows mel = []
  · rw [if_pos h]
    have hlt : mel.length < PATCH_FRAMES := (patchWindows_eq_nil_iff mel).mp h
    refine ⟨by simp, ?_, fun _ => by simp⟩
    intro p hp
    simp only [List.mem_singleton] at hp
    subst hp
    constructor
    · simp only [List.length_append, List.length_take, List.length_replicate]
      simp only [PATCH_FRAMES] at hlt ⊢
      omega
    · intro row hrow
      rcases List.mem_append.mp hrow with h1 | h2
      · exact hw row (List.mem_of_mem_take h1)
      · rw [List.eq_of_mem_replicate h2]
        simp
  · rw [if_neg h]
    refine ⟨h, ?_, ?_⟩
    · intro p hp
      unfold patchWindows at hp
      split_ifs at hp with hlt
      · simp at hp
      · obtain ⟨i, hi, hip⟩ := List.mem_map.mp hp
        have hi2 : i ≤ (mel.length - PATCH_FRAMES) / PATCH_HOP :=
          Nat.lt_succ_iff.mp (List.mem_range.mp hi)
        have hbound : i * PATCH_HOP ≤ mel.length - PATCH_FRAMES :=
          le_trans (Nat.mul_le_mul_right PATCH_HOP hi2) (Nat.div_mul_le_self _ _)
        have hlen : i * PATCH_HOP + PATCH_FRAMES ≤ mel.length := by
          simp only [PATCH_FRAMES, PATCH_HOP] at hbound hlt ⊢
          omega
        subst hip
        constructor
        · simp only [List.length_take, List.length_drop]
          omega
        · intro row hrow
          exact hw row (List.mem_of_mem_drop (List.mem_of_mem_take hrow))
    · intro hlt
      exact absurd ((patchWindows_eq_nil_iff mel).mpr hlt) h

/-- C9 (witness): an empty spectrogram still yields exactly one (padded)
patch. -/
theorem c9_witness :
    audioPreprocessPatches ([] : List (List ℚ)) ≠ [] ∧
    (audioPreprocessPatches ([] : List (List ℚ))).length = 1 :=
  ⟨(c9_theorem [] (by simp)).1, (c9_theorem [] (by simp)).2.2 (by decide)⟩

end CamerAI
